import Mathlib

namespace RTRQ

/-!
Verification of the rtrq subscription registry, key matcher, hook chains and
invalidation dispatcher. The definitions are shallow embeddings of
packages/utils/src/keys/matcher.ts and packages/manager/src/server.ts.
-/

/-- Model of a JavaScript value as it can occur inside a subscription or
invalidation key. Composite values (arrays and objects) carry a reference
identifier so that the JavaScript strict-equality operator, which compares
objects by reference, can be modelled: two composites with different
reference identifiers are distinct objects even when structurally equal.
Numbers are modelled as integers. -/
inductive JSValue : Type where
  | str (s : String)
  | num (n : Int)
  | bool (b : Bool)
  | null
  | arr (ref : Nat) (elems : List JSValue)
  | obj (ref : Nat) (fields : List (String × JSValue))

/-- JavaScript strict equality (the === operator) on key elements, as used by
isKeyMatch: primitives compare by value, arrays and objects compare by
reference identity. -/
def jsStrictEq : JSValue → JSValue → Bool
  | .str a, .str b => a == b
  | .num a, .num b => a == b
  | .bool a, .bool b => a == b
  | .null, .null => true
  | .arr r _, .arr r' _ => r == r'
  | .obj r _, .obj r' _ => r == r'
  | _, _ => false

mutual

/-- Structural deep equality on values (by value semantics), ignoring
reference identity. -/
def deepEq : JSValue → JSValue → Bool
  | .str a, .str b => a == b
  | .num a, .num b => a == b
  | .bool a, .bool b => a == b
  | .null, .null => true
  | .arr _ xs, .arr _ ys => deepEqList xs ys
  | .obj _ fs, .obj _ gs => deepEqFields fs gs
  | _, _ => false

/-- Elementwise deep equality of two sequences. -/
def deepEqList : List JSValue → List JSValue → Bool
  | [], [] => true
  | x :: xs, y :: ys => deepEq x y && deepEqList xs ys
  | _, _ => false

/-- Fieldwise deep equality of two field lists. -/
def deepEqFields : List (String × JSValue) → List (String × JSValue) → Bool
  | [], [] => true
  | (k, v) :: fs, (k', v') :: gs => k == k' && deepEq v v' && deepEqFields fs gs
  | _, _ => false

end
mutual

/-- Canonical representative of a value: every reference identifier is
replaced by zero. JSON text never records reference identity, so a freshly
parsed value is the canonical representative of the value that was
serialised. -/
def canon : JSValue → JSValue
  | .str s => .str s
  | .num n => .num n
  | .bool b => .bool b
  | .null => .null
  | .arr _ xs => .arr 0 (canonList xs)
  | .obj _ fs => .obj 0 (canonFields fs)

/-- Canonical representative of a sequence of values. -/
def canonList : List JSValue → List JSValue
  | [] => []
  | x :: xs => canon x :: canonList xs

/-- Canonical representative of a field list. -/
def canonFields : List (String × JSValue) → List (String × JSValue)
  | [] => []
  | (k, v) :: fs => (k, canon v) :: canonFields fs

end
/-- Model of isKeyMatch from packages/utils/src/keys/matcher.ts. Exact
match: the lengths agree and every element is strictly equal positionwise.
Prefix match: the invalidation key is strictly shorter and every one of its
elements is strictly equal to the element at the same index of the
subscription key. Otherwise no match. -/
def isKeyMatch (subscriptionKey invalidationKey : List JSValue) : Bool :=
  if subscriptionKey.length = invalidationKey.length then
    (subscriptionKey.zip invalidationKey).all fun p => jsStrictEq p.1 p.2
  else if invalidationKey.length < subscriptionKey.length then
    (invalidationKey.zip subscriptionKey).all fun p => jsStrictEq p.1 p.2
  else
    false

/-! JSON serialisation. The server canonicalises every subscription key with
JSON.stringify before using it as a map key, and recovers the logical key
with JSON.parse when reporting. The following definitions model the JSON
text produced for the value domain that can occur in keys (strings, integer
numbers, booleans, null, arrays, objects), and a whole-input JSON reader for
that grammar. -/

/-- Decimal digit character for a digit below ten. -/
def digitChar : Nat → Char
  | 0 => '0' | 1 => '1' | 2 => '2' | 3 => '3' | 4 => '4'
  | 5 => '5' | 6 => '6' | 7 => '7' | 8 => '8' | _ => '9'

/-- Numeric value of a decimal digit character. -/
def chDigit (c : Char) : Nat := c.toNat - 48

/-- Test for a decimal digit character. -/
def isDigitCh (c : Char) : Bool := 48 ≤ c.toNat && c.toNat ≤ 57

/-- Decimal representation of a natural number, most significant digit
first, as JSON.stringify emits it. -/
def natChars (n : Nat) : List Char :=
  if n = 0 then ['0'] else ((Nat.digits 10 n).map digitChar).reverse

/-- Decimal representation of an integer. -/
def intChars : Int → List Char
  | .ofNat n => natChars n
  | .negSucc n => '-' :: natChars (n + 1)

/-- JSON string escaping: quote and backslash characters are prefixed with a
backslash; every other character is emitted as itself. -/
def escChars : List Char → List Char
  | [] => []
  | c :: cs => if c = '\"' ∨ c = '\\' then '\\' :: c :: escChars cs else c :: escChars cs

mutual

/-- JSON text of a value, as a character list, in the format produced by
JSON.stringify: no whitespace, fields in insertion order, reference
identity not recorded. -/
def strV : JSValue → List Char
  | .str s => '\"' :: (escChars s.data ++ ['\"'])
  | .num n => intChars n
  | .bool true => ['t', 'r', 'u', 'e']
  | .bool false => ['f', 'a', 'l', 's', 'e']
  | .null => ['n', 'u', 'l', 'l']
  | .arr _ xs => '[' :: (strElems xs ++ [']'])
  | .obj _ fs => '\x7b' :: (strFields fs ++ ['\x7d'])

/-- Comma-separated JSON texts of the elements of an array. -/
def strElems : List JSValue → List Char
  | [] => []
  | [x] => strV x
  | x :: y :: ys => strV x ++ ',' :: strElems (y :: ys)

/-- Comma-separated JSON texts of the fields of an object. -/
def strFields : List (String × JSValue) → List Char
  | [] => []
  | [(k, v)] => '\"' :: (escChars k.data ++ '\"' :: ':' :: strV v)
  | (k, v) :: f :: fs =>
      '\"' :: (escChars k.data ++ '\"' :: ':' :: (strV v ++ ',' :: strFields (f :: fs)))

end
/-- Read the body of a JSON string after the opening quote, undoing the
escaping, up to the closing quote. -/
def parseStrBody : List Char → Option (List Char × List Char)
  | [] => none
  | c :: cs =>
    if c = '\\' then
      match cs with
      | [] => none
      | c2 :: cs2 => (parseStrBody cs2).map fun p => (c2 :: p.1, p.2)
    else if c = '\"' then some ([], cs)
    else (parseStrBody cs).map fun p => (c :: p.1, p.2)

/-- Match an expected literal character sequence at the head of the input. -/
def expectChars : List Char → List Char → Option (List Char)
  | [], cs => some cs
  | _ :: _, [] => none
  | e :: es, c :: cs => if c = e then expectChars es cs else none

/-- Numeric value of a big-endian run of digit characters. -/
def digitsVal (ds : List Char) : Nat := Nat.ofDigits 10 ((ds.map chDigit).reverse)

/-- Read a maximal non-empty run of digit characters as a natural number. -/
def parseNat (cs : List Char) : Option (Nat × List Char) :=
  let ds := cs.takeWhile isDigitCh
  if ds.isEmpty then none else some (digitsVal ds, cs.dropWhile isDigitCh)

mutual

/-- Fuel-indexed JSON reader for a single value. All newly built composites
get reference identifier zero: parsed values are canonical representatives,
fresh objects unrelated to the ones that were serialised. -/
def parseV : Nat → List Char → Option (JSValue × List Char)
  | 0, _ => none
  | fuel + 1, cs =>
    match cs with
    | [] => none
    | c :: cs' =>
      if c = '\"' then (parseStrBody cs').map fun p => (JSValue.str ⟨p.1⟩, p.2)
      else if c = 'n' then (expectChars ['u', 'l', 'l'] cs').map fun r => (JSValue.null, r)
      else if c = 't' then (expectChars ['r', 'u', 'e'] cs').map fun r => (JSValue.bool true, r)
      else if c = 'f' then (expectChars ['a', 'l', 's', 'e'] cs').map fun r => (JSValue.bool false, r)
      else if c = '[' then
        match cs' with
        | [] => none
        | c2 :: cs2 =>
          if c2 = ']' then some (JSValue.arr 0 [], cs2)
          else (parseElems fuel (c2 :: cs2)).map fun p => (JSValue.arr 0 p.1, p.2)
      else if c = '\x7b' then
        match cs' with
        | [] => none
        | c2 :: cs2 =>
          if c2 = '\x7d' then some (JSValue.obj 0 [], cs2)
          else (parseFields fuel (c2 :: cs2)).map fun p => (JSValue.obj 0 p.1, p.2)
      else if c = '-' then (parseNat cs').map fun p => (JSValue.num (-(p.1 : Int)), p.2)
      else (parseNat (c :: cs')).map fun p => (JSValue.num ((p.1 : Int)), p.2)

/-- Fuel-indexed reader for one or more comma-separated array elements
followed by the closing bracket. -/
def parseElems : Nat → List Char → Option (List JSValue × List Char)
  | 0, _ => none
  | fuel + 1, cs =>
    match parseV fuel cs with
    | none => none
    | some (v, rest) =>
      match rest with
      | [] => none
      | c :: rest' =>
        if c = ',' then
          match parseElems fuel rest' with
          | none => none
          | some (vs, rest2) => some (v :: vs, rest2)
        else if c = ']' then some ([v], rest')
        else none

/-- Fuel-indexed reader for one or more comma-separated object fields
followed by the closing brace. -/
def parseFields : Nat → List Char → Option (List (String × JSValue) × List Char)
  | 0, _ => none
  | fuel + 1, cs =>
    match cs with
    | [] => none
    | c :: cs' =>
      if c = '\"' then
        match parseStrBody cs' with
        | none => none
        | some (k, rest) =>
          match rest with
          | [] => none
          | c2 :: rest' =>
            if c2 = ':' then
              match parseV fuel rest' with
              | none => none
              | some (v, rest2) =>
                match rest2 with
                | [] => none
                | c3 :: rest3 =>
                  if c3 = ',' then
                    match parseFields fuel rest3 with
                    | none => none
                    | some (fs, rest4) => some ((⟨k⟩, v) :: fs, rest4)
                  else if c3 = '\x7d' then some ([(⟨k⟩, v)], rest3)
                  else none
            else none
      else none

end
/-- Canonical registry map key of a subscription key, modelling the
JSON.stringify call in the subscription, unsubscription, close and dispatch
paths of server.ts. -/
def stringifyKey (k : List JSValue) : String := ⟨strV (JSValue.arr 0 k)⟩

/-- Whole-input JSON read of a registry map key back to the logical
subscription key, modelling the JSON.parse calls in server.ts. -/
def parseKey (s : String) : Option (List JSValue) :=
  match parseV (s.data.length + 1) s.data with
  | some (.arr _ xs, []) => some xs
  | _ => none

/-! Lemmas leading to the round-trip theorem: reading back the JSON text of
a value yields its canonical representative. -/

/-- A continuation is digit-safe when it does not begin with a digit, so the
digit run of a serialised number cannot extend into it. -/
def goodRest : List Char → Prop
  | [] => True
  | c :: _ => isDigitCh c = false

mutual

/-- Structural size of a value, bounding the fuel the reader needs. -/
def msize : JSValue → Nat
  | .str _ => 1
  | .num _ => 1
  | .bool _ => 1
  | .null => 1
  | .arr _ xs => msizeList xs + 1
  | .obj _ fs => msizeFields fs + 1

/-- Structural size of a sequence of values. -/
def msizeList : List JSValue → Nat
  | [] => 0
  | x :: xs => msize x + msizeList xs + 1

/-- Structural size of a field list. -/
def msizeFields : List (String × JSValue) → Nat
  | [] => 0
  | (_, v) :: fs => msize v + msizeFields fs + 1

end
/-! Server model. The registry state of RTRQServer (server.ts): the
subscriptions map from serialised key to subscriber-socket set, the client
id map, the client request map and the id counter. JavaScript Map and Set
preserve insertion order, so both are modelled as insertion-ordered lists;
sockets are opaque handles modelled as natural numbers. -/

/-- Opaque handle of a WebSocket connection. -/
abbrev Client := Nat

/-- Mutable state of an RTRQServer instance. -/
structure ServerState where
  subscriptions : List (String × List Client)
  clientIds : List (Client × String)
  clientRequests : List Client
  nextClientId : Nat

/-- A fresh server: empty maps, id counter at one. -/
def initialState : ServerState := ⟨[], [], [], 1⟩

/-- Map.prototype.get on an insertion-ordered association list. -/
def assocGet {α β : Type} [BEq α] (m : List (α × β)) (k : α) : Option β :=
  (m.find? fun e => e.1 == k).map (·.2)

/-- Map.prototype.set: replace the value in place when the key is present,
append a new entry otherwise. -/
def assocSet {α β : Type} [BEq α] (m : List (α × β)) (k : α) (v : β) : List (α × β) :=
  if (m.find? fun e => e.1 == k).isSome then
    m.map fun e => if e.1 == k then (e.1, v) else e
  else m ++ [(k, v)]

/-- Map.prototype.delete: drop the entry with the given key. -/
def assocDelete {α β : Type} [BEq α] (m : List (α × β)) (k : α) : List (α × β) :=
  m.filter fun e => !(e.1 == k)

/-- Set.prototype.add: append the element unless already present. -/
def setAdd (s : List Client) (c : Client) : List Client :=
  if s.contains c then s else s ++ [c]

/-- Set.prototype.delete: remove the element. -/
def setDelete (s : List Client) (c : Client) : List Client := s.erase c

/-- Event payload of query:subscribe. -/
structure SubscribeEvent where
  key : List JSValue
  clientId : String
  totalSubscribers : Nat

/-- Event payload of query:unsubscribe. -/
structure UnsubscribeEvent where
  key : List JSValue
  clientId : String
  remainingSubscribers : Nat

/-- Event payload of client:connect. -/
structure ConnectEvent where
  clientId : String
  totalConnections : Nat

/-- Event payload of client:disconnect. -/
structure DisconnectEvent where
  clientId : String
  code : Nat
  message : String
  remainingConnections : Nat
  removedSubscriptions : List (List JSValue)

/-- Model of the open handler: assign the next client id, record the socket
in the id and request maps, and emit client:connect. -/
def openConn (st : ServerState) (c : Client) : ServerState × ConnectEvent :=
  let clientId := "client-" ++ toString st.nextClientId
  let ids := assocSet st.clientIds c clientId
  let reqs := if st.clientRequests.contains c then st.clientRequests
              else st.clientRequests ++ [c]
  ({ st with
      clientIds := ids
      clientRequests := reqs
      nextClientId := st.nextClientId + 1 },
   { clientId := clientId, totalConnections := ids.length })

/-- Model of the message handler, subscription case: serialise the key with
JSON.stringify, create the subscriber set when absent, add the socket to
it, and emit query:subscribe with the set's new size. -/
def subscribeOp (st : ServerState) (c : Client) (k : List JSValue) :
    ServerState × SubscribeEvent :=
  let key := stringifyKey k
  let subs0 := if (assocGet st.subscriptions key).isSome then st.subscriptions
               else assocSet st.subscriptions key []
  let subs1 := match assocGet subs0 key with
               | some s => assocSet subs0 key (setAdd s c)
               | none => subs0
  ({ st with subscriptions := subs1 },
   { key := k
     clientId := (assocGet st.clientIds c).getD "unknown"
     totalSubscribers := ((assocGet subs1 key).getD []).length })

/-- Model of the message handler, unsubscription case: remove the socket
from the key's set, delete the key entry when no subscribers remain, and
emit query:unsubscribe with the remaining count (zero for an unknown key). -/
def unsubscribeOp (st : ServerState) (c : Client) (k : List JSValue) :
    ServerState × UnsubscribeEvent :=
  let key := stringifyKey k
  let subs0 := match assocGet st.subscriptions key with
               | some s => assocSet st.subscriptions key (setDelete s c)
               | none => st.subscriptions
  let remaining := ((assocGet subs0 key).getD []).length
  let subs1 := if remaining = 0 then assocDelete subs0 key else subs0
  ({ st with subscriptions := subs1 },
   { key := k
     clientId := (assocGet st.clientIds c).getD "unknown"
     remainingSubscribers := remaining })

/-- The purge loop shared by the close handler and removeDeadClient: walk
the subscriptions entries in order, remove the socket from every set it
occurs in, drop entries that become empty, and collect the parsed keys the
socket was removed from, in iteration order. -/
def purgeEntries (c : Client) :
    List (String × List Client) → List (String × List Client) × List (List JSValue)
  | [] => ([], [])
  | (key, clients) :: rest =>
    let pr := purgeEntries c rest
    if clients.contains c then
      let clients' := setDelete clients c
      if clients'.length = 0 then (pr.1, (parseKey key).getD [] :: pr.2)
      else ((key, clients') :: pr.1, (parseKey key).getD [] :: pr.2)
    else ((key, clients) :: pr.1, pr.2)

/-- Model of the close handler: read the client id, purge the socket from
every subscription, drop it from the id and request maps, and emit
client:disconnect with the remaining connection count and the removed
subscription keys. -/
def closeConn (st : ServerState) (c : Client) (code : Nat) (msg : String) :
    ServerState × DisconnectEvent :=
  let clientId := (assocGet st.clientIds c).getD "unknown"
  let pr := purgeEntries c st.subscriptions
  let ids := assocDelete st.clientIds c
  let reqs := st.clientRequests.filter fun x => !(x == c)
  ({ st with
      subscriptions := pr.1
      clientIds := ids
      clientRequests := reqs },
   { clientId := clientId
     code := code
     message := msg
     remainingConnections := ids.length
     removedSubscriptions := pr.2 })

/-- Model of removeDeadClient: the same purge as the close handler with a
synthesised abnormal-closure event (code 1006, message Connection lost). -/
def removeDeadClient (st : ServerState) (c : Client) : ServerState × DisconnectEvent :=
  closeConn st c 1006 "Connection lost"

/-- Event payload of query:before-invalidate. -/
structure BeforeInvalidateEvent where
  key : List JSValue
  matchedKeys : List (List JSValue)
  totalSubscriptions : Nat

/-- Event payload of query:invalidate. -/
structure InvalidationEvent where
  key : List JSValue
  matchedKeys : List (List JSValue)
  notifiedClients : Nat
  totalSubscriptions : Nat

/-- Everything observable about one invalidateQuery call: the state after
it, the before-invalidate event, the final invalidation event (absent when
prevented), the synthesised disconnect events, and the clients that
received the notification, in send order. -/
structure InvalidateOutcome where
  state : ServerState
  beforeEvent : BeforeInvalidateEvent
  finalEvent : Option InvalidationEvent
  disconnects : List DisconnectEvent
  sent : List Client

/-- The send loop over the snapshot copy of one matched key's subscriber
set: a successful send records the client as notified; a failed send purges
the dead client through removeDeadClient and the loop continues with the
remaining subscribers. -/
def sendLoop (f : Client → Bool) :
    List Client → ServerState → ServerState × List Client × List DisconnectEvent
  | [], st => (st, [], [])
  | c :: cs, st =>
    if f c then
      let r := sendLoop f cs st
      (r.1, c :: r.2.1, r.2.2)
    else
      let d := removeDeadClient st c
      let r := sendLoop f cs d.1
      (r.1, r.2.1, d.2 :: r.2.2)

/-- Dispatch over the matched keys in order: look up the key's current
subscriber set (it may have shrunk or vanished through purges triggered by
earlier sends), snapshot it, and run the send loop on the snapshot. -/
def notifyMatched (f : Client → Bool) :
    List (List JSValue) → ServerState → ServerState × List Client × List DisconnectEvent
  | [], st => (st, [], [])
  | mk :: mks, st =>
    match assocGet st.subscriptions (stringifyKey mk) with
    | none => notifyMatched f mks st
    | some clients =>
      let r1 := sendLoop f clients st
      let r2 := notifyMatched f mks r1.1
      (r2.1, r1.2.1 ++ r2.2.1, r1.2.2 ++ r2.2.2)

/-- Model of RTRQServer.invalidateQuery: parse every registered key and
keep those the matcher accepts, emit query:before-invalidate with the
pre-dispatch distinct-key count, stop when some handler called
preventDefault (the flag is only ever set, never cleared), otherwise send
to the subscribers of every matched key and emit query:invalidate with the
registry size read again at completion time. A before-invalidate handler is
modelled by whether it calls preventDefault; f tells which sockets accept a
send. -/
def invalidateQuery (st : ServerState) (biHandlers : List Bool)
    (key : List JSValue) (f : Client → Bool) : InvalidateOutcome :=
  let matched := (st.subscriptions.map fun e => (parseKey e.1).getD []).filter
      fun sk => isKeyMatch sk key
  let beforeEvent : BeforeInvalidateEvent :=
    { key := key
      matchedKeys := matched
      totalSubscriptions := st.subscriptions.length }
  if biHandlers.any id then
    { state := st
      beforeEvent := beforeEvent
      finalEvent := none
      disconnects := []
      sent := [] }
  else
    let r := notifyMatched f matched st
    { state := r.1
      beforeEvent := beforeEvent
      finalEvent := some { key := key
                           matchedKeys := matched
                           notifiedClients := r.2.1.length
                           totalSubscriptions := r.1.subscriptions.length }
      disconnects := r.2.2
      sent := r.2.1 }

/-- One call a hook handler can make on its decision object. -/
inductive HookCall where
  | allow
  | deny (msg : Option String)

/-- Effect of one allow or deny call on the shared decision state, exactly
as the allow and deny closures of server.ts mutate isAllowed and
denyMessage. -/
def applyHookCall : Bool × String → HookCall → Bool × String
  | (_, m), .allow => (true, m)
  | (_, m), .deny none => (false, m)
  | (_, _), .deny (some msg) => (false, msg)

/-- EventEmitter.emit invokes every registered handler in registration
order; each handler performs its calls in order on the shared decision
state. The returned list records the indices of the handlers that were
invoked, starting from i. -/
def emitHookChain (handlers : List (List HookCall)) (s : Bool × String) (i : Nat) :
    (Bool × String) × List Nat :=
  match handlers with
  | [] => (s, [])
  | h :: hs =>
    let r := emitHookChain hs (h.foldl applyHookCall s) (i + 1)
    (r.1, i :: r.2)

/-- Outcome of the upgrade handler for one connection attempt. -/
inductive UpgradeResult where
  | upgraded
  | rejected (status : String) (msg : String)

/-- Model of the upgrade handler: the decision state starts allowed with
the default deny message, before:connection is emitted to every handler,
and the connection is rejected with 403 exactly when the final state is
denied. -/
def upgradeFlow (handlers : List (List HookCall)) : UpgradeResult × List Nat :=
  let r := emitHookChain handlers (true, "Connection denied") 0
  if r.1.1 then (UpgradeResult.upgraded, r.2)
  else (UpgradeResult.rejected "403 Forbidden" r.1.2, r.2)

/-- Response of the POST /invalidate endpoint together with the handler
invocations and the dispatch outcome when one happened. -/
structure PostInvalidateResult where
  status : String
  invoked : List Nat
  outcome : Option InvalidateOutcome

/-- Model of the POST /invalidate endpoint after body validation: emit
before:invalidation to every registered handler, answer 403 without
invalidating when the final decision state is denied, otherwise run
invalidateQuery and answer 200. -/
def postInvalidate (st : ServerState) (handlers : List (List HookCall))
    (biHandlers : List Bool) (key : List JSValue) (f : Client → Bool) :
    ServerState × PostInvalidateResult :=
  let r := emitHookChain handlers (true, "Invalidation denied") 0
  if r.1.1 then
    let outcome := invalidateQuery st biHandlers key f
    (outcome.state, { status := "200 OK", invoked := r.2, outcome := some outcome })
  else
    (st, { status := "403 Forbidden", invoked := r.2, outcome := none })

/-- Decision value carried by the last allow or deny call of a run of the
hook chain; with no call at all the default is allow. -/
def decisionOf : Option HookCall → Bool
  | some HookCall.allow => true
  | some (HookCall.deny _) => false
  | none => true

/-- One externally triggered operation on a server instance. -/
inductive Op where
  | openConn (c : Client)
  | subscribe (c : Client) (k : List JSValue)
  | unsubscribe (c : Client) (k : List JSValue)
  | close (c : Client) (code : Nat) (msg : String)
  | invalidate (biHandlers : List Bool) (k : List JSValue) (f : Client → Bool)

/-- Apply one operation to the state, discarding the emitted events. -/
def applyOp (st : ServerState) : Op → ServerState
  | .openConn c => (openConn st c).1
  | .subscribe c k => (subscribeOp st c k).1
  | .unsubscribe c k => (unsubscribeOp st c k).1
  | .close c code msg => (closeConn st c code msg).1
  | .invalidate bh k f => (invalidateQuery st bh k f).state

/-- The state reached from a fresh server by a sequence of operations. -/
def runOps (ops : List Op) : ServerState := ops.foldl applyOp initialState

/-- C7: an empty invalidation key matches every subscription key: a
non-empty subscription key matches by the prefix rule (every element of the
empty sequence trivially matches), and the empty subscription key matches by
the exact-match rule. -/
theorem isKeyMatch_empty_invalidation (s : List JSValue) :
    isKeyMatch s [] = true := by
  cases s <;> simp [isKeyMatch]

/-- C2 evaluation at the failing input: two keys of equal length whose
second elements are structurally equal arrays but distinct objects. The
matcher compares elements with the strict-equality operator, which compares
composites by reference, so it returns false even though every pair of
corresponding elements is deeply equal. -/
theorem isKeyMatch_not_deep_on_exact :
    deepEqList
        [JSValue.str "tags", JSValue.arr 0 [JSValue.str "urgent", JSValue.str "important"]]
        [JSValue.str "tags", JSValue.arr 1 [JSValue.str "urgent", JSValue.str "important"]]
      = true ∧
    isKeyMatch
        [JSValue.str "tags", JSValue.arr 0 [JSValue.str "urgent", JSValue.str "important"]]
        [JSValue.str "tags", JSValue.arr 1 [JSValue.str "urgent", JSValue.str "important"]]
      = false := by
  constructor <;> rfl

/-- C3 counterexample, taken from the nested-arrays case of the repository's
own matcher test suite: the invalidation key is a proper prefix of the
subscription key under deep equality (strictly shorter, elements deeply
equal positionwise), yet isKeyMatch returns false because the nested arrays
are distinct objects and the matcher compares them by reference. -/
theorem isKeyMatch_not_deep_on_prefix :
    (List.length
        [JSValue.str "tags", JSValue.arr 1 [JSValue.str "urgent", JSValue.str "important"]]
      < List.length
        [JSValue.str "tags", JSValue.arr 0 [JSValue.str "urgent", JSValue.str "important"],
          JSValue.str "active"]) ∧
    deepEqList
        (List.take 2
          [JSValue.str "tags", JSValue.arr 0 [JSValue.str "urgent", JSValue.str "important"],
            JSValue.str "active"])
        [JSValue.str "tags", JSValue.arr 1 [JSValue.str "urgent", JSValue.str "important"]]
      = true ∧
    isKeyMatch
        [JSValue.str "tags", JSValue.arr 0 [JSValue.str "urgent", JSValue.str "important"],
          JSValue.str "active"]
        [JSValue.str "tags", JSValue.arr 1 [JSValue.str "urgent", JSValue.str "important"]]
      = false := by
  refine ⟨by decide, by rfl, by rfl⟩

/-- Digits below ten round-trip through their character form. -/
theorem chDigit_digitChar {d : Nat} (h : d < 10) : chDigit (digitChar d) = d := by
  interval_cases d <;> decide

/-- Digit characters pass the digit test. -/
theorem isDigitCh_digitChar {d : Nat} (h : d < 10) : isDigitCh (digitChar d) = true := by
  interval_cases d <;> decide

/-- Every character of a serialised natural number is a digit. -/
theorem natChars_all_digits (n : Nat) : ∀ c ∈ natChars n, isDigitCh c = true := by
  intro c hc
  unfold natChars at hc
  by_cases hn : n = 0
  · rw [if_pos hn] at hc
    simp only [List.mem_singleton] at hc
    rw [hc]; decide
  · simp only [if_neg hn, List.mem_reverse, List.mem_map] at hc
    obtain ⟨d, hd, rfl⟩ := hc
    exact isDigitCh_digitChar (Nat.digits_lt_base (by norm_num) hd)

/-- A serialised natural number is never the empty text. -/
theorem natChars_ne_nil (n : Nat) : natChars n ≠ [] := by
  unfold natChars
  by_cases hn : n = 0
  · simp [hn]
  · simp only [if_neg hn, ne_eq, List.reverse_eq_nil_iff, List.map_eq_nil_iff]
    exact Nat.digits_ne_nil_iff_ne_zero.mpr hn

/-- Reading the digit run of a serialised natural number back recovers it. -/
theorem digitsVal_natChars (n : Nat) : digitsVal (natChars n) = n := by
  unfold digitsVal natChars
  by_cases hn : n = 0
  · simp [hn, chDigit, Nat.ofDigits]
  · simp only [if_neg hn, List.map_reverse, List.reverse_reverse, List.map_map]
    have hmap : (Nat.digits 10 n).map (chDigit ∘ digitChar) = Nat.digits 10 n := by
      refine List.map_congr_left ?_ |>.trans (List.map_id _)
      intro d hd
      exact chDigit_digitChar (Nat.digits_lt_base (by norm_num) hd)
    rw [hmap, Nat.ofDigits_digits]

/-- Taking while a predicate holds passes over a block where it holds
everywhere. -/
theorem takeWhile_append_all (p : Char → Bool) (l r : List Char)
    (h : ∀ c ∈ l, p c = true) : (l ++ r).takeWhile p = l ++ r.takeWhile p := by
  induction l with
  | nil => simp
  | cons c cs ih =>
    have hc := h c (List.mem_cons_self c cs)
    have ih' := ih fun c' hc' => h c' (List.mem_cons_of_mem c hc')
    simp [List.takeWhile_cons, hc, ih']

/-- Dropping while a predicate holds passes over a block where it holds
everywhere. -/
theorem dropWhile_append_all (p : Char → Bool) (l r : List Char)
    (h : ∀ c ∈ l, p c = true) : (l ++ r).dropWhile p = r.dropWhile p := by
  induction l with
  | nil => simp
  | cons c cs ih =>
    have hc := h c (List.mem_cons_self c cs)
    have ih' := ih fun c' hc' => h c' (List.mem_cons_of_mem c hc')
    simp [List.dropWhile_cons, hc, ih']

/-- A digit-safe continuation contributes nothing to a digit run. -/
theorem takeWhile_digit_goodRest (r : List Char) (h : goodRest r) :
    r.takeWhile isDigitCh = [] := by
  cases r with
  | nil => rfl
  | cons c cs => simp only [goodRest] at h; simp [List.takeWhile_cons, h]

/-- Dropping a digit run from a digit-safe continuation keeps it whole. -/
theorem dropWhile_digit_goodRest (r : List Char) (h : goodRest r) :
    r.dropWhile isDigitCh = r := by
  cases r with
  | nil => rfl
  | cons c cs => simp only [goodRest] at h; simp [List.dropWhile_cons, h]

/-- Reading a serialised natural number followed by a digit-safe
continuation recovers the number and the continuation. -/
theorem parseNat_natChars (n : Nat) (rest : List Char) (h : goodRest rest) :
    parseNat (natChars n ++ rest) = some (n, rest) := by
  unfold parseNat
  rw [takeWhile_append_all _ _ _ (natChars_all_digits n), takeWhile_digit_goodRest rest h,
    dropWhile_append_all _ _ _ (natChars_all_digits n), dropWhile_digit_goodRest rest h,
    List.append_nil]
  simp [List.isEmpty_iff, natChars_ne_nil n, digitsVal_natChars]

/-- Reading an escaped string body followed by the closing quote recovers
the original characters and the continuation. -/
theorem parseStrBody_escChars (s rest : List Char) :
    parseStrBody (escChars s ++ '\"' :: rest) = some (s, rest) := by
  induction s with
  | nil =>
    show parseStrBody ('\"' :: rest) = some ([], rest)
    rw [parseStrBody.eq_def]; dsimp only
    rw [if_neg (by decide), if_pos rfl]
  | cons c cs ih =>
    by_cases h : c = '\"' ∨ c = '\\'
    · simp only [escChars, if_pos h, List.cons_append]
      rw [parseStrBody.eq_def]; dsimp only
      rw [if_pos rfl, ih]; rfl
    · push_neg at h
      have hesc : escChars (c :: cs) = c :: escChars cs := by
        rw [escChars.eq_def]; try dsimp only
        rw [if_neg (by tauto)]
      rw [hesc, List.cons_append, parseStrBody.eq_def]; try dsimp only
      rw [if_neg h.2, if_neg h.1, ih]; rfl

/-- The JSON text of a value is non-empty and never begins with a closing
bracket. -/
theorem strV_head_cons (v : JSValue) :
    ∃ c cs0, strV v = c :: cs0 ∧ c ≠ ']' := by
  cases v with
  | str s => exact ⟨_, _, rfl, by decide⟩
  | num n =>
    cases n with
    | ofNat m =>
      obtain ⟨c, cs0, heq⟩ : ∃ c cs0, natChars m = c :: cs0 := by
        cases hn : natChars m with
        | nil => exact absurd hn (natChars_ne_nil m)
        | cons a l => exact ⟨a, l, rfl⟩
      have hdg : isDigitCh c = true :=
        natChars_all_digits m c (by rw [heq]; exact List.mem_cons_self c cs0)
      refine ⟨c, cs0, ?_, ?_⟩
      · simpa [strV, intChars] using heq
      · intro hc; rw [hc] at hdg; exact absurd hdg (by decide)
    | negSucc m => exact ⟨'-', _, rfl, by decide⟩
  | bool b =>
    cases b with
    | false => exact ⟨'f', _, rfl, by decide⟩
    | true => exact ⟨'t', _, rfl, by decide⟩
  | null => exact ⟨'n', _, rfl, by decide⟩
  | arr r xs => exact ⟨'[', _, rfl, by decide⟩
  | obj r fs => exact ⟨'\x7b', _, rfl, by decide⟩

/-- Every value has positive size. -/
theorem one_le_msize (v : JSValue) : 1 ≤ msize v := by
  cases v <;> simp only [msize] <;> omega

/-- A continuation headed by a non-digit character is digit-safe. -/
theorem goodRest_cons (c : Char) (r : List Char) (h : isDigitCh c = false) :
    goodRest (c :: r) := h

/-- On input headed by a digit character, the reader takes the number
branch. -/
theorem parseV_digit (fuel : Nat) (c : Char) (cs : List Char) (h : isDigitCh c = true) :
    parseV (fuel + 1) (c :: cs)
      = (parseNat (c :: cs)).map fun p => (JSValue.num ((p.1 : Int)), p.2) := by
  have hne : ∀ c' : Char, isDigitCh c' = false → c ≠ c' := by
    intro c' hd e
    rw [e, hd] at h
    exact absurd h (by decide)
  rw [parseV.eq_def]; try dsimp only
  rw [if_neg (hne '\"' (by decide)), if_neg (hne 'n' (by decide)),
    if_neg (hne 't' (by decide)), if_neg (hne 'f' (by decide)),
    if_neg (hne '[' (by decide)), if_neg (hne '\x7b' (by decide)),
    if_neg (hne '-' (by decide))]

/-- Round trip of the reader against the serialiser: the JSON text of a
value followed by a digit-safe continuation reads back as the canonical
representative of the value, leaving the continuation; non-empty element
and field lists behave likewise up to their closing delimiter. -/
theorem parse_strV_round (fuel : Nat) :
    (∀ v rest, msize v ≤ fuel → goodRest rest →
        parseV fuel (strV v ++ rest) = some (canon v, rest)) ∧
    (∀ xs rest, xs ≠ [] → msizeList xs ≤ fuel →
        parseElems fuel (strElems xs ++ ']' :: rest) = some (canonList xs, rest)) ∧
    (∀ fs rest, fs ≠ [] → msizeFields fs ≤ fuel →
        parseFields fuel (strFields fs ++ '\x7d' :: rest) = some (canonFields fs, rest)) := by
  induction fuel with
  | zero =>
    refine ⟨?_, ?_, ?_⟩
    · intro v rest hm _
      exact absurd hm (Nat.not_le.mpr (one_le_msize v))
    · intro xs rest hne hm
      cases xs with
      | nil => exact absurd rfl hne
      | cons x xs' => simp only [msizeList] at hm; omega
    · intro fs rest hne hm
      cases fs with
      | nil => exact absurd rfl hne
      | cons f fs' =>
        obtain ⟨k, v⟩ := f
        simp only [msizeFields] at hm; omega
  | succ fuel ih =>
    obtain ⟨ihV, ihE, ihF⟩ := ih
    refine ⟨?_, ?_, ?_⟩
    · intro v rest hm hr
      cases v with
      | str s =>
        obtain ⟨sd⟩ := s
        simp only [strV, List.cons_append, List.append_assoc, List.singleton_append]
        rw [parseV.eq_def]; try dsimp only
        simp only [Char.reduceEq, reduceIte]
        rw [parseStrBody_escChars]
        rfl
      | num n =>
        cases n with
        | ofNat m =>
          obtain ⟨c, cs0, heq⟩ : ∃ c cs0, natChars m = c :: cs0 := by
            cases hn : natChars m with
            | nil => exact absurd hn (natChars_ne_nil m)
            | cons a l => exact ⟨a, l, rfl⟩
          have hdg : isDigitCh c = true :=
            natChars_all_digits m c (by rw [heq]; exact List.mem_cons_self c cs0)
          have hs : strV (JSValue.num (Int.ofNat m)) = natChars m := by
            simp only [strV, intChars]
          rw [hs, heq, List.cons_append, parseV_digit fuel c (cs0 ++ rest) hdg,
            ← List.cons_append, ← heq, parseNat_natChars m rest hr]
          rfl
        | negSucc m =>
          have hs : strV (JSValue.num (Int.negSucc m)) ++ rest
              = '-' :: (natChars (m + 1) ++ rest) := by
            simp only [strV, intChars, List.cons_append]
          rw [hs, parseV.eq_def]; try dsimp only
          simp only [Char.reduceEq, reduceIte]
          rw [parseNat_natChars (m + 1) rest hr]
          have hneg : -(((m + 1 : Nat)) : Int) = Int.negSucc m := by
            rw [Int.negSucc_eq]; push_cast; ring
          simp only [Option.map_some']
          rw [hneg]
          rfl
      | bool b =>
        cases b with
        | false =>
          simp only [strV, List.cons_append]
          rw [parseV.eq_def]; try dsimp only
          simp only [Char.reduceEq, reduceIte, expectChars]
          rfl
        | true =>
          simp only [strV, List.cons_append]
          rw [parseV.eq_def]; try dsimp only
          simp only [Char.reduceEq, reduceIte, expectChars]
          rfl
      | null =>
        simp only [strV, List.cons_append]
        rw [parseV.eq_def]; try dsimp only
        simp only [Char.reduceEq, reduceIte, expectChars]
        rfl
      | arr r xs =>
        cases xs with
        | nil =>
          have hs : strV (JSValue.arr r []) ++ rest = '[' :: (']' :: rest) := by
            simp [strV, strElems]
          rw [hs, parseV.eq_def]; try dsimp only
          simp only [Char.reduceEq, reduceIte]
          rfl
        | cons x xs' =>
          obtain ⟨c, cs0, hx, hcne⟩ := strV_head_cons x
          obtain ⟨t, ht⟩ : ∃ t, strElems (x :: xs') = strV x ++ t := by
            cases xs' with
            | nil => exact ⟨[], (List.append_nil _).symm⟩
            | cons y ys => exact ⟨',' :: strElems (y :: ys), rfl⟩
          have hshape : strV (JSValue.arr r (x :: xs')) ++ rest
              = '[' :: (c :: (cs0 ++ (t ++ (']' :: rest)))) := by
            simp only [strV]
            rw [ht, hx]
            simp [List.append_assoc]
          rw [hshape, parseV.eq_def]; try dsimp only
          simp only [Char.reduceEq, reduceIte]
          rw [if_neg hcne]
          have hback : c :: (cs0 ++ (t ++ (']' :: rest)))
              = strElems (x :: xs') ++ ']' :: rest := by
            rw [ht, hx]
            simp [List.append_assoc]
          rw [hback, ihE (x :: xs') rest (by simp) (by simp only [msize] at hm; omega)]
          rfl
      | obj r fs =>
        cases fs with
        | nil =>
          have hs : strV (JSValue.obj r []) ++ rest = '\x7b' :: ('\x7d' :: rest) := by
            simp [strV, strFields]
          rw [hs, parseV.eq_def]; try dsimp only
          simp only [Char.reduceEq, reduceIte]
          rfl
        | cons f fs' =>
          obtain ⟨t, ht⟩ : ∃ t, strFields (f :: fs') = '\"' :: t := by
            obtain ⟨k, v⟩ := f
            cases fs' with
            | nil => exact ⟨_, rfl⟩
            | cons g gs => exact ⟨_, rfl⟩
          have hshape : strV (JSValue.obj r (f :: fs')) ++ rest
              = '\x7b' :: ('\"' :: (t ++ ('\x7d' :: rest))) := by
            simp only [strV]
            rw [ht]
            simp [List.append_assoc]
          rw [hshape, parseV.eq_def]; try dsimp only
          simp only [Char.reduceEq, reduceIte]
          have hback : '\"' :: (t ++ ('\x7d' :: rest))
              = strFields (f :: fs') ++ '\x7d' :: rest := by
            rw [ht]
            simp
          rw [hback, ihF (f :: fs') rest (by simp) (by simp only [msize] at hm; omega)]
          rfl
    · intro xs rest hne hm
      cases xs with
      | nil => exact absurd rfl hne
      | cons x xs' =>
        rw [parseElems.eq_def]; try dsimp only
        cases xs' with
        | nil =>
          have h1 : strElems [x] ++ ']' :: rest = strV x ++ (']' :: rest) := by
            simp [strElems]
          rw [h1, ihV x (']' :: rest) (by simp only [msizeList] at hm; omega)
            (goodRest_cons _ _ (by decide))]
          simp only [Char.reduceEq, reduceIte]
          rfl
        | cons y ys =>
          have h1 : strElems (x :: y :: ys) ++ ']' :: rest
              = strV x ++ (',' :: (strElems (y :: ys) ++ ']' :: rest)) := by
            simp [strElems, List.append_assoc]
          have hmx : msize x ≤ fuel := by
            simp only [msizeList] at hm; omega
          have hmy : msizeList (y :: ys) ≤ fuel := by
            simp only [msizeList] at hm ⊢; omega
          rw [h1, ihV x _ hmx (goodRest_cons _ _ (by decide))]
          simp only [Char.reduceEq, reduceIte]
          rw [ihE (y :: ys) rest (by simp) hmy]
          rfl
    · intro fs rest hne hm
      cases fs with
      | nil => exact absurd rfl hne
      | cons f fs' =>
        obtain ⟨k, v⟩ := f
        obtain ⟨kd⟩ := k
        rw [parseFields.eq_def]; try dsimp only
        cases fs' with
        | nil =>
          have h1 : strFields [(⟨kd⟩, v)] ++ '\x7d' :: rest
              = '\"' :: (escChars kd ++ '\"' :: (':' :: (strV v ++ ('\x7d' :: rest)))) := by
            simp [strFields, List.append_assoc]
          have hmv : msize v ≤ fuel := by
            simp only [msizeFields] at hm; omega
          rw [h1]
          simp only [Char.reduceEq, reduceIte]
          rw [parseStrBody_escChars]
          try dsimp only
          simp only [Char.reduceEq, reduceIte]
          rw [ihV v ('\x7d' :: rest) hmv (goodRest_cons _ _ (by decide))]
          simp only [Char.reduceEq, reduceIte]
          rfl
        | cons g gs =>
          obtain ⟨gk, gv⟩ := g
          have h1 : strFields ((⟨kd⟩, v) :: (gk, gv) :: gs) ++ '\x7d' :: rest
              = '\"' :: (escChars kd ++ '\"' :: (':' ::
                  (strV v ++ (',' :: (strFields ((gk, gv) :: gs) ++ '\x7d' :: rest))))) := by
            simp [strFields, List.append_assoc]
          have hmv : msize v ≤ fuel := by
            simp only [msizeFields] at hm; omega
          have hmg : msizeFields ((gk, gv) :: gs) ≤ fuel := by
            simp only [msizeFields] at hm ⊢; omega
          rw [h1]
          simp only [Char.reduceEq, reduceIte]
          rw [parseStrBody_escChars]
          try dsimp only
          simp only [Char.reduceEq, reduceIte]
          rw [ihV v _ hmv (goodRest_cons _ _ (by decide))]
          simp only [Char.reduceEq, reduceIte]
          rw [ihF ((gk, gv) :: gs) rest (by simp) hmg]
          rfl

mutual

/-- The size of a value never exceeds the length of its JSON text. -/
theorem msize_le_strV : ∀ v : JSValue, msize v ≤ (strV v).length
  | .str s => by
      simp only [strV, msize, List.length_cons, List.length_append]; omega
  | .num (Int.ofNat m) => by
      have h := List.length_pos.mpr (natChars_ne_nil m)
      simp only [strV, intChars, msize]; omega
  | .num (Int.negSucc m) => by
      simp only [strV, intChars, msize, List.length_cons]; omega
  | .bool true => by simp [strV, msize]
  | .bool false => by simp [strV, msize]
  | .null => by simp [strV, msize]
  | .arr r xs => by
      have h := msizeList_le_strElems xs
      simp only [strV, msize, List.length_cons, List.length_append,
        List.length_singleton]
      omega
  | .obj r fs => by
      have h := msizeFields_le_strFields fs
      simp only [strV, msize, List.length_cons, List.length_append,
        List.length_singleton]
      omega

/-- The size of an element list never exceeds the length of its JSON text
plus one. -/
theorem msizeList_le_strElems : ∀ xs : List JSValue,
    msizeList xs ≤ (strElems xs).length + 1
  | [] => by simp [msizeList, strElems]
  | [x] => by
      have h := msize_le_strV x
      simp only [msizeList, strElems]; omega
  | x :: y :: ys => by
      have h1 := msize_le_strV x
      have h2 := msizeList_le_strElems (y :: ys)
      simp only [msizeList] at h2 ⊢
      simp only [strElems, List.length_append, List.length_cons]
      omega

/-- The size of a field list never exceeds the length of its JSON text plus
one. -/
theorem msizeFields_le_strFields : ∀ fs : List (String × JSValue),
    msizeFields fs ≤ (strFields fs).length + 1
  | [] => by simp [msizeFields, strFields]
  | [(k, v)] => by
      have h := msize_le_strV v
      simp only [msizeFields, strFields, List.length_cons, List.length_append]
      omega
  | (k, v) :: (gk, gv) :: gs => by
      have h1 := msize_le_strV v
      have h2 := msizeFields_le_strFields ((gk, gv) :: gs)
      simp only [msizeFields] at h2 ⊢
      simp only [strFields, List.length_cons, List.length_append]
      omega

end
/-- Reading a canonical registry map key back yields the canonical
representative of the subscription key it was made from. -/
theorem parseKey_stringifyKey (k : List JSValue) :
    parseKey (stringifyKey k) = some (canonList k) := by
  have hfuel : msize (JSValue.arr 0 k) ≤ (strV (JSValue.arr 0 k)).length + 1 := by
    have := msize_le_strV (JSValue.arr 0 k); omega
  have h := (parse_strV_round ((strV (JSValue.arr 0 k)).length + 1)).1
    (JSValue.arr 0 k) [] hfuel trivial
  rw [List.append_nil] at h
  show (match parseV ((strV (JSValue.arr 0 k)).length + 1) (strV (JSValue.arr 0 k)) with
    | some (.arr _ xs, []) => some xs
    | _ => none) = some (canonList k)
  rw [h]
  rfl

mutual

/-- Canonicalisation is idempotent on values. -/
theorem canon_canon : ∀ v : JSValue, canon (canon v) = canon v
  | .str s => rfl
  | .num n => rfl
  | .bool b => rfl
  | .null => rfl
  | .arr r xs => by simp only [canon, canonList_canon xs]
  | .obj r fs => by simp only [canon, canonFields_canon fs]

/-- Canonicalisation is idempotent on sequences. -/
theorem canonList_canon : ∀ xs : List JSValue, canonList (canonList xs) = canonList xs
  | [] => rfl
  | x :: xs => by simp only [canonList, canon_canon x, canonList_canon xs]

/-- Canonicalisation is idempotent on field lists. -/
theorem canonFields_canon : ∀ fs : List (String × JSValue),
    canonFields (canonFields fs) = canonFields fs
  | [] => rfl
  | (k, v) :: fs => by simp only [canonFields, canon_canon v, canonFields_canon fs]

end
/-- Deep equality is equality of canonical representatives, proven with a
size bound that makes the nested induction well-founded. -/
theorem deepEq_canon_bounded : ∀ n : Nat,
    (∀ a b : JSValue, msize a ≤ n → (deepEq a b = true ↔ canon a = canon b)) ∧
    (∀ xs ys : List JSValue, msizeList xs ≤ n →
        (deepEqList xs ys = true ↔ canonList xs = canonList ys)) ∧
    (∀ fs gs : List (String × JSValue), msizeFields fs ≤ n →
        (deepEqFields fs gs = true ↔ canonFields fs = canonFields gs)) := by
  intro n
  induction n with
  | zero =>
    refine ⟨?_, ?_, ?_⟩
    · intro a b h
      exact absurd h (Nat.not_le.mpr (one_le_msize a))
    · intro xs ys h
      cases xs with
      | nil => cases ys with
        | nil => simp [deepEqList, canonList]
        | cons y ys' => simp [deepEqList, canonList]
      | cons x xs' => simp only [msizeList] at h; omega
    · intro fs gs h
      cases fs with
      | nil => cases gs with
        | nil => simp [deepEqFields, canonFields]
        | cons g gs' => obtain ⟨gk, gv⟩ := g; simp [deepEqFields, canonFields]
      | cons f fs' => obtain ⟨fk, fv⟩ := f; simp only [msizeFields] at h; omega
  | succ n ih =>
    obtain ⟨ihv, ihl, ihf⟩ := ih
    refine ⟨?_, ?_, ?_⟩
    · intro a b h
      cases a <;> cases b <;> try (simp [deepEq, canon]; done)
      · rename_i r xs r' ys
        simp only [deepEq, canon, JSValue.arr.injEq, true_and]
        exact ihl xs ys (by simp only [msize] at h; omega)
      · rename_i r fs r' gs
        simp only [deepEq, canon, JSValue.obj.injEq, true_and]
        exact ihf fs gs (by simp only [msize] at h; omega)
    · intro xs ys h
      cases xs with
      | nil => cases ys with
        | nil => simp [deepEqList, canonList]
        | cons y ys' => simp [deepEqList, canonList]
      | cons x xs' =>
        cases ys with
        | nil => simp [deepEqList, canonList]
        | cons y ys' =>
          simp only [deepEqList, canonList, Bool.and_eq_true, List.cons.injEq]
          rw [ihv x y (by simp only [msizeList] at h; omega),
              ihl xs' ys' (by simp only [msizeList] at h; omega)]
    · intro fs gs h
      cases fs with
      | nil => cases gs with
        | nil => simp [deepEqFields, canonFields]
        | cons g gs' => obtain ⟨gk, gv⟩ := g; simp [deepEqFields, canonFields]
      | cons f fs' =>
        obtain ⟨fk, fv⟩ := f
        cases gs with
        | nil => simp [deepEqFields, canonFields]
        | cons g gs' =>
          obtain ⟨gk, gv⟩ := g
          simp only [deepEqFields, canonFields, Bool.and_eq_true, List.cons.injEq,
            Prod.mk.injEq, beq_iff_eq]
          rw [ihv fv gv (by simp only [msizeFields] at h; omega),
              ihf fs' gs' (by simp only [msizeFields] at h; omega)]

/-- Deep equality of sequences is equality of canonical representatives. -/
theorem deepEqList_iff_canon (xs ys : List JSValue) :
    deepEqList xs ys = true ↔ canonList xs = canonList ys :=
  (deepEq_canon_bounded (msizeList xs)).2.1 xs ys le_rfl

/-- C6: the canonicalisation used as the registry map key (JSON.stringify)
is injective with respect to deep equality - two subscription keys that
canonicalise to the same map key are deeply equal, so logically distinct
keys never collide, in particular a null element is distinguished from an
absent one and a numeric element from a string-typed one - and
deserialising the canonical form yields back a key deeply equal to the
original logical key for reporting. -/
theorem stringifyKey_injective_and_roundTrip :
    (∀ k1 k2 : List JSValue, stringifyKey k1 = stringifyKey k2 →
        deepEqList k1 k2 = true) ∧
    (∀ k : List JSValue, ∃ k', parseKey (stringifyKey k) = some k' ∧
        deepEqList k' k = true) ∧
    stringifyKey [JSValue.null] ≠ stringifyKey [] ∧
    stringifyKey [JSValue.num 1] ≠ stringifyKey [JSValue.str "1"] := by
  have hinj : ∀ k1 k2 : List JSValue, stringifyKey k1 = stringifyKey k2 →
      deepEqList k1 k2 = true := by
    intro k1 k2 hs
    have h1 := parseKey_stringifyKey k1
    rw [hs, parseKey_stringifyKey k2] at h1
    exact (deepEqList_iff_canon k1 k2).mpr (Option.some.inj h1).symm
  refine ⟨hinj, ?_, ?_, ?_⟩
  · intro k
    exact ⟨canonList k, parseKey_stringifyKey k,
      (deepEqList_iff_canon (canonList k) k).mpr (canonList_canon k)⟩
  · intro h
    exact absurd (hinj _ _ h) (by decide)
  · intro h
    exact absurd (hinj _ _ h) (by decide)

/-- Witness: the injectivity direction applied at a concrete key pair and
the round trip applied at a concrete key. -/
theorem stringifyKey_injective_and_roundTrip_witness :
    deepEqList [JSValue.null, JSValue.num 12] [JSValue.null, JSValue.num 12] = true ∧
    ∃ k', parseKey (stringifyKey [JSValue.str "post", JSValue.num 12]) = some k' ∧
        deepEqList k' [JSValue.str "post", JSValue.num 12] = true :=
  ⟨stringifyKey_injective_and_roundTrip.1 _ _ rfl,
    stringifyKey_injective_and_roundTrip.2.1 _⟩

/-- Entries of a map after set: either the new value at the given key, or
an untouched entry with a different key. -/
theorem mem_assocSet {α β : Type} [BEq α] [LawfulBEq α]
    (m : List (α × β)) (k : α) (v : β) :
    ∀ e ∈ assocSet m k v, (e.1 = k ∧ e.2 = v) ∨ (e ∈ m ∧ e.1 ≠ k) := by
  intro e he
  unfold assocSet at he
  by_cases hf : (m.find? fun e => e.1 == k).isSome
  · rw [if_pos hf] at he
    obtain ⟨a, ha, hae⟩ := List.mem_map.mp he
    by_cases hk : a.1 == k
    · left
      rw [if_pos hk] at hae
      exact ⟨hae ▸ eq_of_beq hk, hae ▸ rfl⟩
    · right
      rw [if_neg hk] at hae
      exact ⟨hae ▸ ha, hae ▸ fun h => hk (beq_iff_eq.mpr h)⟩
  · rw [if_neg hf] at he
    rcases List.mem_append.mp he with h | h
    · right
      refine ⟨h, fun hk => ?_⟩
      have hnone : (m.find? fun e => e.1 == k) = none :=
        Option.not_isSome_iff_eq_none.mp hf
      exact absurd (beq_iff_eq.mpr hk) (by simpa using List.find?_eq_none.mp hnone e h)
    · left
      rw [List.mem_singleton.mp h]
      exact ⟨rfl, rfl⟩

/-- Lookup after set finds the value just set, in the map-with-key case. -/
theorem assocGet_mapSet {α β : Type} [BEq α] [LawfulBEq α]
    (m : List (α × β)) (k : α) (v : β)
    (hf : (m.find? fun e => e.1 == k).isSome = true) :
    assocGet (m.map fun e => if e.1 == k then (e.1, v) else e) k = some v := by
  induction m with
  | nil => simp [List.find?] at hf
  | cons a m' ih =>
    by_cases ha : a.1 == k
    · simp [assocGet, List.find?, ha]
    · have hf' : (m'.find? fun e => e.1 == k).isSome = true := by
        simpa [List.find?, ha] using hf
      have := ih hf'
      simpa [assocGet, List.find?, ha] using this

/-- Lookup after set finds the value just set, in the key-absent case. -/
theorem assocGet_append_single {α β : Type} [BEq α] [LawfulBEq α]
    (m : List (α × β)) (k : α) (v : β)
    (hf : (m.find? fun e => e.1 == k) = none) :
    assocGet (m ++ [(k, v)]) k = some v := by
  have hall := List.find?_eq_none.mp hf
  induction m with
  | nil => simp [assocGet, List.find?]
  | cons a m' ih =>
    have ha : (a.1 == k) = false := by
      simpa using hall a (List.mem_cons_self a m')
    have ih' := ih (List.find?_eq_none.mpr fun x hx =>
      hall x (List.mem_cons_of_mem a hx))
      (fun x hx => hall x (List.mem_cons_of_mem a hx))
    simpa [assocGet, List.find?, ha] using ih'

/-- Lookup after set always finds the value just set. -/
theorem assocGet_assocSet_self {α β : Type} [BEq α] [LawfulBEq α]
    (m : List (α × β)) (k : α) (v : β) :
    assocGet (assocSet m k v) k = some v := by
  unfold assocSet
  by_cases hf : (m.find? fun e => e.1 == k).isSome
  · rw [if_pos hf]
    exact assocGet_mapSet m k v hf
  · rw [if_neg hf]
    exact assocGet_append_single m k v (Option.not_isSome_iff_eq_none.mp hf)

/-- Setting a key to a value every entry of that key already holds leaves
the map unchanged. -/
theorem assocSet_eq_self {α β : Type} [BEq α] [LawfulBEq α]
    (m : List (α × β)) (k : α) (v : β)
    (hp : (m.find? fun e => e.1 == k).isSome)
    (hall : ∀ e ∈ m, e.1 = k → e.2 = v) :
    assocSet m k v = m := by
  unfold assocSet
  rw [if_pos hp]
  have hid : ∀ e ∈ m, (if e.1 == k then (e.1, v) else e) = e := by
    intro e he
    by_cases hk : e.1 == k
    · rw [if_pos hk]
      obtain ⟨e1, e2⟩ := e
      have := hall _ he (eq_of_beq hk)
      simp_all
    · rw [if_neg hk]
  exact (List.map_congr_left fun e he => hid e he).trans (List.map_id m)

/-- The element just added is in the set. -/
theorem setAdd_contains (s : List Client) (c : Client) :
    (setAdd s c).contains c = true := by
  unfold setAdd
  by_cases h : s.contains c
  · rw [if_pos h]; exact h
  · rw [if_neg h]
    simp

/-- Adding an element already present leaves the set unchanged. -/
theorem setAdd_of_contains (s : List Client) (c : Client)
    (h : s.contains c = true) : setAdd s c = s := by
  unfold setAdd
  rw [if_pos h]

/-- A set is non-empty after adding an element. -/
theorem setAdd_ne_nil (s : List Client) (c : Client) : setAdd s c ≠ [] := by
  unfold setAdd
  cases s with
  | nil => simp
  | cons a l =>
    by_cases h : (a :: l).contains c
    · rw [if_pos h]; simp
    · rw [if_neg h]; simp

/-- The registry invariant: every key present in the subscriptions map has
a non-empty subscriber set. Preserved by the subscription path. -/
theorem subsInv_subscribe (st : ServerState) (c : Client) (k : List JSValue)
    (hinv : ∀ e ∈ st.subscriptions, e.2 ≠ []) :
    ∀ e ∈ (subscribeOp st c k).1.subscriptions, e.2 ≠ [] := by
  intro e he
  unfold subscribeOp at he
  simp only at he
  rcases hm : assocGet
      (if (assocGet st.subscriptions (stringifyKey k)).isSome = true
        then st.subscriptions else assocSet st.subscriptions (stringifyKey k) [])
      (stringifyKey k) with _ | s
  all_goals rw [hm] at he
  · -- lookup missed: the map is untouched
    by_cases hp : (assocGet st.subscriptions (stringifyKey k)).isSome
    · rw [if_pos hp] at he
      exact hinv e he
    · rw [if_neg hp] at hm
      rw [assocGet_assocSet_self] at hm
      cases hm
  · -- lookup hit: the updated entry holds the freshly added set
    rcases mem_assocSet _ _ _ e he with ⟨_, hv⟩ | ⟨hmem, hne⟩
    · rw [hv]
      exact setAdd_ne_nil s c
    · by_cases hp : (assocGet st.subscriptions (stringifyKey k)).isSome
      · rw [if_pos hp] at hmem
        exact hinv e hmem
      · rw [if_neg hp] at hmem
        rcases mem_assocSet _ _ _ e hmem with ⟨hk, _⟩ | ⟨hmem', _⟩
        · exact absurd hk hne
        · exact hinv e hmem'

/-- The registry invariant is preserved by the unsubscription path: an
entry emptied by the removal is deleted from the map. -/
theorem subsInv_unsubscribe (st : ServerState) (c : Client) (k : List JSValue)
    (hinv : ∀ e ∈ st.subscriptions, e.2 ≠ []) :
    ∀ e ∈ (unsubscribeOp st c k).1.subscriptions, e.2 ≠ [] := by
  intro e he
  unfold unsubscribeOp at he
  simp only at he
  rcases hm : assocGet st.subscriptions (stringifyKey k) with _ | s
  all_goals rw [hm] at he
  · -- unknown key: remaining is 0, the delete is a no-op on other entries
    simp only [assocGet, hm] at he
    rcases hr : ((Option.map (fun e => e.2)
        (List.find? (fun e => e.1 == stringifyKey k) st.subscriptions)).getD []).length
      with _ | n
    · rw [hr] at he
      simp only [if_pos rfl] at he
      exact hinv e (List.mem_filter.mp he).1
    · rw [hr] at he
      simp only [Nat.succ_ne_zero, if_false] at he
      exact hinv e he
  · rcases hr : ((assocGet (assocSet st.subscriptions (stringifyKey k)
        (setDelete s c)) (stringifyKey k)).getD []).length with _ | n
    · rw [hr] at he
      simp only [if_pos rfl] at he
      have hmem := (List.mem_filter.mp he).1
      rcases mem_assocSet _ _ _ e hmem with ⟨hk, _⟩ | ⟨hmem', _⟩
      · -- an entry with the deleted key cannot survive the filter
        have := (List.mem_filter.mp he).2
        simp [hk] at this
      · exact hinv e hmem'
    · rw [hr] at he
      simp only [Nat.succ_ne_zero, if_false] at he
      rcases mem_assocSet _ _ _ e he with ⟨_, hv⟩ | ⟨hmem', _⟩
      · -- the updated entry holds the shrunk set, whose length is n + 1
        rw [assocGet_assocSet_self] at hr
        simp only [Option.getD_some] at hr
        rw [hv]
        intro hnil
        rw [hnil] at hr
        cases hr
      · exact hinv e hmem'

/-- The registry invariant is preserved by the purge loop. -/
theorem subsInv_purgeEntries (c : Client) (m : List (String × List Client))
    (hinv : ∀ e ∈ m, e.2 ≠ []) :
    ∀ e ∈ (purgeEntries c m).1, e.2 ≠ [] := by
  induction m with
  | nil => intro e he; cases he
  | cons a rest ih =>
    obtain ⟨key, clients⟩ := a
    intro e he
    have ih' := ih fun e' he' => hinv e' (List.mem_cons_of_mem _ he')
    simp only [purgeEntries] at he
    by_cases hc : clients.contains c
    · rw [if_pos hc] at he
      by_cases hz : (setDelete clients c).length = 0
      · rw [if_pos hz] at he
        exact ih' e he
      · rw [if_neg hz] at he
        rcases List.mem_cons.mp he with h | h
        · rw [h]
          exact fun hnil => hz (by simpa using congrArg List.length hnil)
        · exact ih' e h
    · rw [if_neg hc] at he
      rcases List.mem_cons.mp he with h | h
      · rw [h]
        exact hinv _ (List.mem_cons_self _ _)
      · exact ih' e h

/-- The registry invariant is preserved by the close path. -/
theorem subsInv_closeConn (st : ServerState) (c : Client) (code : Nat) (msg : String)
    (hinv : ∀ e ∈ st.subscriptions, e.2 ≠ []) :
    ∀ e ∈ (closeConn st c code msg).1.subscriptions, e.2 ≠ [] :=
  subsInv_purgeEntries c st.subscriptions hinv

/-- The registry invariant is preserved by the send loop (every mutation
inside it goes through removeDeadClient, which purges). -/
theorem subsInv_sendLoop (f : Client → Bool) (cs : List Client) (st : ServerState)
    (hinv : ∀ e ∈ st.subscriptions, e.2 ≠ []) :
    ∀ e ∈ (sendLoop f cs st).1.subscriptions, e.2 ≠ [] := by
  induction cs generalizing st with
  | nil => exact hinv
  | cons c cs' ih =>
    simp only [sendLoop]
    by_cases hf : f c
    · rw [if_pos hf]
      exact ih st hinv
    · rw [if_neg hf]
      exact ih _ (subsInv_closeConn st c 1006 "Connection lost" hinv)

/-- The registry invariant is preserved by the dispatch over matched keys. -/
theorem subsInv_notifyMatched (f : Client → Bool) (mks : List (List JSValue))
    (st : ServerState) (hinv : ∀ e ∈ st.subscriptions, e.2 ≠ []) :
    ∀ e ∈ (notifyMatched f mks st).1.subscriptions, e.2 ≠ [] := by
  induction mks generalizing st with
  | nil => exact hinv
  | cons mk mks' ih =>
    simp only [notifyMatched]
    rcases hg : assocGet st.subscriptions (stringifyKey mk) with _ | clients
    · exact ih st hinv
    · exact ih _ (subsInv_sendLoop f clients st hinv)

/-- The registry invariant is preserved by every operation. -/
theorem subsInv_applyOp (st : ServerState) (op : Op)
    (hinv : ∀ e ∈ st.subscriptions, e.2 ≠ []) :
    ∀ e ∈ (applyOp st op).subscriptions, e.2 ≠ [] := by
  cases op with
  | openConn c => exact hinv
  | subscribe c k => exact subsInv_subscribe st c k hinv
  | unsubscribe c k => exact subsInv_unsubscribe st c k hinv
  | close c code msg => exact subsInv_closeConn st c code msg hinv
  | invalidate bh k f =>
    simp only [applyOp, invalidateQuery]
    by_cases hb : bh.any id
    · rw [if_pos hb]
      exact hinv
    · rw [if_neg hb]
      exact subsInv_notifyMatched f _ st hinv

/-- C4: in every state reachable by subscribe, unsubscribe, disconnect and
invalidation (dead-send-purge) operations, a serialised key is present in
the subscriptions map exactly when its subscriber set is non-empty - every
present entry has a non-empty set, and the matched keys of any invalidation
all come from present entries - so a key whose last subscriber left cannot
appear among the matched keys of a later invalidation. -/
theorem registry_keySet_invariant (ops : List Op) :
    (∀ e ∈ (runOps ops).subscriptions, e.2 ≠ []) ∧
    (∀ (bh : List Bool) (ik : List JSValue) (f : Client → Bool),
      ∀ mk ∈ (invalidateQuery (runOps ops) bh ik f).beforeEvent.matchedKeys,
        ∃ e ∈ (runOps ops).subscriptions,
          mk = (parseKey e.1).getD [] ∧ e.2 ≠ []) := by
  have hinv : ∀ e ∈ (runOps ops).subscriptions, e.2 ≠ [] := by
    unfold runOps
    have hgen : ∀ (l : List Op) (st : ServerState),
        (∀ e ∈ st.subscriptions, e.2 ≠ []) →
        ∀ e ∈ (l.foldl applyOp st).subscriptions, e.2 ≠ [] := by
      intro l
      induction l with
      | nil => intro st h; exact h
      | cons op l' ih =>
        intro st h
        exact ih (applyOp st op) (subsInv_applyOp st op h)
    exact hgen ops initialState (by intro e he; cases he)
  refine ⟨hinv, ?_⟩
  intro bh ik f mk hmk
  have hmk' : mk ∈ ((runOps ops).subscriptions.map fun e =>
      (parseKey e.1).getD []).filter fun sk => isKeyMatch sk ik := by
    simp only [invalidateQuery] at hmk
    by_cases hb : bh.any id
    · rw [if_pos hb] at hmk
      exact hmk
    · rw [if_neg hb] at hmk
      exact hmk
  obtain ⟨hmem, _⟩ := List.mem_filter.mp hmk'
  obtain ⟨e, he, hmkeq⟩ := List.mem_map.mp hmem
  exact ⟨e, he, hmkeq.symm, hinv e he⟩

/-- Witness for the registry invariant at a concrete run: one subscription
leaves a registry entry with a non-empty set, and the matched keys of an
invalidation with the empty key come from that entry. -/
theorem registry_keySet_invariant_witness :
    (([0] : List Client) ≠ []) ∧
    (∃ e ∈ (runOps [Op.subscribe 0 [JSValue.null]]).subscriptions,
      [JSValue.null] = (parseKey e.1).getD [] ∧ e.2 ≠ []) :=
  ⟨(registry_keySet_invariant [Op.subscribe 0 [JSValue.null]]).1
      (stringifyKey [JSValue.null], [0])
      (by rw [show (runOps [Op.subscribe 0 [JSValue.null]]).subscriptions
            = [(stringifyKey [JSValue.null], [0])] from rfl]
          exact List.mem_singleton.mpr rfl),
    (registry_keySet_invariant [Op.subscribe 0 [JSValue.null]]).2
      [] [] (fun _ => true) [JSValue.null]
      (by rw [show (invalidateQuery (runOps [Op.subscribe 0 [JSValue.null]])
              [] [] (fun _ => true)).beforeEvent.matchedKeys
            = [[JSValue.null]] from rfl]
          exact List.mem_singleton.mpr rfl)⟩

/-- Every entry carrying the key just set holds the value just set. -/
theorem assocSet_all_key {α β : Type} [BEq α] [LawfulBEq α]
    (m : List (α × β)) (k : α) (v : β) :
    ∀ e ∈ assocSet m k v, e.1 = k → e.2 = v := by
  intro e he hk
  rcases mem_assocSet m k v e he with ⟨_, hv⟩ | ⟨_, hne⟩
  · exact hv
  · exact absurd hk hne

/-- A subscription for a key whose every entry already contains the socket
is a no-op: the state is unchanged and the event reports the existing set
size. -/
theorem subscribeOp_stable (st1 : ServerState) (c : Client) (k : List JSValue)
    (w : List Client)
    (hw : assocGet st1.subscriptions (stringifyKey k) = some w)
    (hc : w.contains c = true)
    (hall : ∀ e ∈ st1.subscriptions, e.1 = stringifyKey k → e.2 = w) :
    subscribeOp st1 c k = (st1,
      { key := k
        clientId := (assocGet st1.clientIds c).getD "unknown"
        totalSubscribers := w.length }) := by
  have hfind : (st1.subscriptions.find? fun e => e.1 == stringifyKey k).isSome = true := by
    unfold assocGet at hw
    rcases hf : st1.subscriptions.find? fun e => e.1 == stringifyKey k with _ | a
    · rw [hf] at hw; cases hw
    · rw [hf]; rfl
  have hset : assocSet st1.subscriptions (stringifyKey k) (setAdd w c)
      = st1.subscriptions := by
    rw [setAdd_of_contains w c hc]
    exact assocSet_eq_self _ _ _ hfind hall
  unfold subscribeOp
  simp [hw, hset]

/-- C10: a duplicate subscription of the same socket to the same key leaves
the registry unchanged (subscriber sets have set semantics) and the
emitted subscribe event reports the same totalSubscribers count, the same
client id and the same key as the event of the first subscription. -/
theorem subscribeOp_idempotent (st : ServerState) (c : Client) (k : List JSValue) :
    subscribeOp (subscribeOp st c k).1 c k = subscribeOp st c k := by
  rcases hs : assocGet st.subscriptions (stringifyKey k) with _ | s
  · -- key absent before the first subscription
    have hs0 : assocGet (assocSet st.subscriptions (stringifyKey k) [])
        (stringifyKey k) = some [] := assocGet_assocSet_self _ _ _
    have h1 : subscribeOp st c k
        = (⟨assocSet (assocSet st.subscriptions (stringifyKey k) []) (stringifyKey k) (setAdd [] c), st.clientIds, st.clientRequests, st.nextClientId⟩,
           { key := k
             clientId := (assocGet st.clientIds c).getD "unknown"
             totalSubscribers := (setAdd [] c).length }) := by
      unfold subscribeOp
      simp [hs, hs0, assocGet_assocSet_self]
    have hw : assocGet (subscribeOp st c k).1.subscriptions (stringifyKey k)
        = some (setAdd [] c) := by
      rw [h1]
      exact assocGet_assocSet_self _ _ _
    have hall : ∀ e ∈ (subscribeOp st c k).1.subscriptions,
        e.1 = stringifyKey k → e.2 = setAdd [] c := by
      rw [h1]
      exact assocSet_all_key _ _ _
    rw [subscribeOp_stable _ c k (setAdd [] c) hw (setAdd_contains [] c) hall, h1]
  · -- key present before the first subscription
    have h1 : subscribeOp st c k
        = (⟨assocSet st.subscriptions (stringifyKey k) (setAdd s c), st.clientIds, st.clientRequests, st.nextClientId⟩,
           { key := k
             clientId := (assocGet st.clientIds c).getD "unknown"
             totalSubscribers := (setAdd s c).length }) := by
      unfold subscribeOp
      simp [hs, assocGet_assocSet_self]
    have hw : assocGet (subscribeOp st c k).1.subscriptions (stringifyKey k)
        = some (setAdd s c) := by
      rw [h1]
      exact assocGet_assocSet_self _ _ _
    have hall : ∀ e ∈ (subscribeOp st c k).1.subscriptions,
        e.1 = stringifyKey k → e.2 = setAdd s c := by
      rw [h1]
      exact assocSet_all_key _ _ _
    rw [subscribeOp_stable _ c k (setAdd s c) hw (setAdd_contains s c) hall, h1]

/-- After the purge loop, the purged socket is in no subscriber set,
provided subscriber sets hold no duplicates (they are built with set
semantics). -/
theorem purge_not_mem (c : Client) (m : List (String × List Client))
    (hnd : ∀ e ∈ m, e.2.Nodup) :
    ∀ e ∈ (purgeEntries c m).1, c ∉ e.2 := by
  induction m with
  | nil => intro e he; cases he
  | cons a rest ih =>
    obtain ⟨key, clients⟩ := a
    intro e he
    have ih' := ih (fun e' he' => hnd e' (List.mem_cons_of_mem _ he')) e
    simp only [purgeEntries] at he
    by_cases hc : clients.contains c
    · rw [if_pos hc] at he
      by_cases hz : (setDelete clients c).length = 0
      · rw [if_pos hz] at he
        exact ih' he
      · rw [if_neg hz] at he
        rcases List.mem_cons.mp he with h | h
        · rw [h]
          have hnodup : clients.Nodup := hnd _ (List.mem_cons_self _ _)
          intro hmem
          exact ((List.Nodup.mem_erase_iff hnodup).mp hmem).1 rfl
        · exact ih' h
    · rw [if_neg hc] at he
      rcases List.mem_cons.mp he with h | h
      · rw [h]
        intro hmem
        simp at hc
        exact hc hmem
      · exact ih' h

/-- Purging a socket that is in no subscriber set leaves the map unchanged
and removes nothing. -/
theorem purge_id_of_not_mem (c : Client) (m : List (String × List Client))
    (h : ∀ e ∈ m, c ∉ e.2) : purgeEntries c m = (m, []) := by
  induction m with
  | nil => rfl
  | cons a rest ih =>
    obtain ⟨key, clients⟩ := a
    have hc : clients.contains c = false := by
      rcases hb : clients.contains c with _ | _
      · rfl
      · simp at hb
        exact absurd hb (h _ (List.mem_cons_self _ _))
    simp only [purgeEntries, hc, Bool.false_eq_true, if_false]
    rw [ih fun e he => h e (List.mem_cons_of_mem _ he)]

/-- Lookup of a key just deleted misses. -/
theorem assocGet_assocDelete {α β : Type} [BEq α] (m : List (α × β)) (k : α) :
    assocGet (assocDelete m k) k = none := by
  unfold assocGet assocDelete
  rw [List.find?_eq_none.mpr]
  · rfl
  · intro x hx
    have := (List.mem_filter.mp hx).2
    simp_all

/-- Deleting the same key twice is the same as deleting it once. -/
theorem assocDelete_idem {α β : Type} [BEq α] (m : List (α × β)) (k : α) :
    assocDelete (assocDelete m k) k = assocDelete m k := by
  unfold assocDelete
  rw [List.filter_filter]
  exact List.filter_congr fun e he => by rw [Bool.and_self]

/-- Filtering twice with the same predicate is the same as filtering once. -/
theorem filter_self_idem {α : Type} (p : α → Bool) (l : List α) :
    (l.filter p).filter p = l.filter p := by
  rw [List.filter_filter]
  exact List.filter_congr fun e he => by rw [Bool.and_self]

/-- C9: purging an already-purged connection is a no-op: the subscriptions
map, the client id map and the request map are unchanged, the second
disconnect event carries an empty removed-subscriptions list and the same
remaining-connections count as the first (no double decrement), the client
id resolves to unknown, and the call is total (never errors). The
hypothesis states that subscriber sets hold no duplicates, which set
semantics guarantees. -/
theorem removeDeadClient_idempotent (st : ServerState) (c : Client)
    (hnd : ∀ e ∈ st.subscriptions, e.2.Nodup) :
    removeDeadClient (removeDeadClient st c).1 c
      = ((removeDeadClient st c).1,
         { clientId := "unknown"
           code := 1006
           message := "Connection lost"
           remainingConnections := (removeDeadClient st c).2.remainingConnections
           removedSubscriptions := [] }) := by
  have h1 : ∀ e ∈ (purgeEntries c st.subscriptions).1, c ∉ e.2 :=
    purge_not_mem c st.subscriptions hnd
  unfold removeDeadClient closeConn
  simp only [purge_id_of_not_mem _ _ h1, assocDelete_idem, assocGet_assocDelete,
    filter_self_idem, Option.getD_none]

/-- Witness for the idempotent purge at a concrete state with one
subscription held by the purged socket. -/
theorem removeDeadClient_idempotent_witness :
    removeDeadClient
        (removeDeadClient ⟨[(stringifyKey [JSValue.null], [0])], [(0, "client-1")], [0], 2⟩ 0).1 0
      = ((removeDeadClient ⟨[(stringifyKey [JSValue.null], [0])], [(0, "client-1")], [0], 2⟩ 0).1,
         { clientId := "unknown"
           code := 1006
           message := "Connection lost"
           remainingConnections :=
             (removeDeadClient ⟨[(stringifyKey [JSValue.null], [0])], [(0, "client-1")], [0], 2⟩ 0).2.remainingConnections
           removedSubscriptions := [] }) :=
  removeDeadClient_idempotent ⟨[(stringifyKey [JSValue.null], [0])], [(0, "client-1")], [0], 2⟩ 0
    (by decide)

mutual

/-- Serialisation never records reference identity, so a value and its
canonical representative have the same JSON text. -/
theorem strV_canon : ∀ v : JSValue, strV (canon v) = strV v
  | .str s => rfl
  | .num n => rfl
  | .bool b => by cases b <;> rfl
  | .null => rfl
  | .arr r xs => by
      have h := strElems_canon xs
      simp only [canon, strV, h]
  | .obj r fs => by
      have h := strFields_canon fs
      simp only [canon, strV, h]

/-- Element lists and their canonical representatives serialise alike. -/
theorem strElems_canon : ∀ xs : List JSValue, strElems (canonList xs) = strElems xs
  | [] => rfl
  | [x] => by
      have h := strV_canon x
      simp only [canonList, strElems, h]
  | x :: y :: ys => by
      have h1 := strV_canon x
      have h2 := strElems_canon (y :: ys)
      simp only [canonList] at h2 ⊢
      simp only [strElems, h1, h2]

/-- Field lists and their canonical representatives serialise alike. -/
theorem strFields_canon : ∀ fs : List (String × JSValue),
    strFields (canonFields fs) = strFields fs
  | [] => rfl
  | [(k, v)] => by
      have h := strV_canon v
      simp only [canonFields, strFields, h]
  | (k, v) :: (gk, gv) :: gs => by
      have h1 := strV_canon v
      have h2 := strFields_canon ((gk, gv) :: gs)
      simp only [canonFields] at h2 ⊢
      simp only [strFields, h1, h2]

end

/-- Canonicalising a subscription key does not change its registry map
key. -/
theorem stringifyKey_canonList (k : List JSValue) :
    stringifyKey (canonList k) = stringifyKey k := by
  unfold stringifyKey
  have h := strV_canon (JSValue.arr 0 k)
  simp only [canon] at h
  rw [h]

/-- C5: dead-subscriber isolation. With sockets a (whose send fails) and b
(whose send succeeds) both subscribed to a key the invalidation matches,
invalidateQuery completes without error and reports notifiedClients = 1;
a is removed from the registry entry and from client tracking with a
synthesised abnormal-closure disconnect event (code 1006), while b is the
one notified client and the final event still fires. -/
theorem deadSubscriber_isolation (a b : Client) (k ikey : List JSValue)
    (f : Client → Bool) (hab : a ≠ b) (hfa : f a = false) (hfb : f b = true)
    (hmatch : isKeyMatch (canonList k) ikey = true) :
    invalidateQuery
        ⟨[(stringifyKey k, [a, b])], [(a, "client-1"), (b, "client-2")], [a, b], 3⟩
        [] ikey f
      = { state := ⟨[(stringifyKey k, [b])], [(b, "client-2")], [b], 3⟩
          beforeEvent := { key := ikey
                           matchedKeys := [canonList k]
                           totalSubscriptions := 1 }
          finalEvent := some { key := ikey
                               matchedKeys := [canonList k]
                               notifiedClients := 1
                               totalSubscriptions := 1 }
          disconnects := [{ clientId := "client-1"
                            code := 1006
                            message := "Connection lost"
                            remainingConnections := 1
                            removedSubscriptions := [canonList k] }]
          sent := [b] } := by
  have hba : b ≠ a := Ne.symm hab
  simp [invalidateQuery, notifyMatched, sendLoop, removeDeadClient, closeConn,
    purgeEntries, assocGet, assocDelete, setDelete, List.find?, hmatch, hfa, hfb,
    hab, hba, parseKey_stringifyKey, stringifyKey_canonList]

/-- Witness for dead-subscriber isolation at concrete sockets, key and
send function. -/
theorem deadSubscriber_isolation_witness :
    invalidateQuery
        ⟨[(stringifyKey [JSValue.str "post"], [1, 2])],
          [(1, "client-1"), (2, "client-2")], [1, 2], 3⟩
        [] [JSValue.str "post"] (fun c => c == 2)
      = { state := ⟨[(stringifyKey [JSValue.str "post"], [2])], [(2, "client-2")], [2], 3⟩
          beforeEvent := { key := [JSValue.str "post"]
                           matchedKeys := [canonList [JSValue.str "post"]]
                           totalSubscriptions := 1 }
          finalEvent := some { key := [JSValue.str "post"]
                               matchedKeys := [canonList [JSValue.str "post"]]
                               notifiedClients := 1
                               totalSubscriptions := 1 }
          disconnects := [{ clientId := "client-1"
                            code := 1006
                            message := "Connection lost"
                            remainingConnections := 1
                            removedSubscriptions := [canonList [JSValue.str "post"]] }]
          sent := [2] } :=
  deadSubscriber_isolation 1 2 [JSValue.str "post"] [JSValue.str "post"]
    (fun c => c == 2) (by decide) rfl rfl (by decide)

/-- A successful send never mutates the state, so a loop in which every
send succeeds returns the state it was given. -/
theorem sendLoop_state_all_ok (f : Client → Bool) (hf : ∀ c, f c = true)
    (cs : List Client) (st : ServerState) : (sendLoop f cs st).1 = st := by
  induction cs generalizing st with
  | nil => rfl
  | cons c cs' ih =>
    simp only [sendLoop, hf c, if_true]
    exact ih st

/-- Dispatch with only successful sends returns the state it was given. -/
theorem notifyMatched_state_all_ok (f : Client → Bool) (hf : ∀ c, f c = true)
    (mks : List (List JSValue)) (st : ServerState) :
    (notifyMatched f mks st).1 = st := by
  induction mks generalizing st with
  | nil => rfl
  | cons mk mks' ih =>
    simp only [notifyMatched]
    rcases hg : assocGet st.subscriptions (stringifyKey mk) with _ | clients
    · exact ih st
    · simp only [sendLoop_state_all_ok f hf clients st]
      exact ih st

/-- C8 counterexample: with a single subscriber whose send fails, the
before-invalidate event reports the pre-dispatch distinct-key count 1, but
the invalidation-completed event reports totalSubscriptions 0, the registry
size recomputed after the dead-subscriber purge - not the pre-dispatch
value the claim states. -/
theorem invalidation_total_not_preDispatch :
    (invalidateQuery
        ⟨[(stringifyKey [JSValue.str "k"], [0])], [(0, "client-1")], [0], 2⟩
        [] [JSValue.str "k"] (fun _ => false)).beforeEvent.totalSubscriptions = 1 ∧
    ((invalidateQuery
        ⟨[(stringifyKey [JSValue.str "k"], [0])], [(0, "client-1")], [0], 2⟩
        [] [JSValue.str "k"] (fun _ => false)).finalEvent.map
      fun ev => ev.totalSubscriptions) = some 0 := by
  constructor <;> rfl

/-- C8 as amended: the invalidation-completed event reports
totalSubscriptions as the registry size read again at completion time
(after any dead-subscriber purges of the send loop), while the
before-invalidation event reports the pre-dispatch value; when every send
succeeds the state is unchanged, so the two values agree. -/
theorem invalidateQuery_total_postDispatch (st : ServerState) (bh : List Bool)
    (key : List JSValue) (f : Client → Bool) :
    (invalidateQuery st bh key f).beforeEvent.totalSubscriptions
        = st.subscriptions.length ∧
    (∀ ev ∈ (invalidateQuery st bh key f).finalEvent,
      ev.totalSubscriptions
        = (invalidateQuery st bh key f).state.subscriptions.length) ∧
    ((∀ c, f c = true) → (invalidateQuery st bh key f).state = st) := by
  refine ⟨?_, ?_, ?_⟩
  · simp only [invalidateQuery]
    by_cases hb : bh.any id
    · rw [if_pos hb]
    · rw [if_neg hb]
  · intro ev hev
    simp only [invalidateQuery] at hev ⊢
    by_cases hb : bh.any id
    · rw [if_pos hb] at hev
      cases hev
    · rw [if_neg hb] at hev ⊢
      simp only [Option.mem_def, Option.some.injEq] at hev
      rw [← hev]
  · intro hf
    simp only [invalidateQuery]
    by_cases hb : bh.any id
    · rw [if_pos hb]
    · rw [if_neg hb]
      exact notifyMatched_state_all_ok f hf _ st

/-- Witness for the amended C8 at a concrete state: the completed event's
count equals the post-dispatch registry size, and with an all-successful
send function the state is unchanged. -/
theorem invalidateQuery_total_postDispatch_witness :
    ({ key := [JSValue.null]
       matchedKeys := [[JSValue.null]]
       notifiedClients := 1
       totalSubscriptions := 1 } : InvalidationEvent).totalSubscriptions
      = (invalidateQuery
          ⟨[(stringifyKey [JSValue.null], [0])], [(0, "client-1")], [0], 2⟩
          [] [JSValue.null] (fun _ => true)).state.subscriptions.length ∧
    (invalidateQuery
        ⟨[(stringifyKey [JSValue.null], [0])], [(0, "client-1")], [0], 2⟩
        [] [JSValue.null] (fun _ => true)).state
      = ⟨[(stringifyKey [JSValue.null], [0])], [(0, "client-1")], [0], 2⟩ :=
  ⟨(invalidateQuery_total_postDispatch
      ⟨[(stringifyKey [JSValue.null], [0])], [(0, "client-1")], [0], 2⟩
      [] [JSValue.null] (fun _ => true)).2.1 _ (Option.mem_def.mpr rfl),
   (invalidateQuery_total_postDispatch
      ⟨[(stringifyKey [JSValue.null], [0])], [(0, "client-1")], [0], 2⟩
      [] [JSValue.null] (fun _ => true)).2.2 fun _ => rfl⟩

/-- Emitting a hook chain invokes every handler: the invocation record is
the full index range, in registration order. -/
theorem emitHookChain_invoked (handlers : List (List HookCall)) :
    ∀ (s : Bool × String) (i : Nat),
      (emitHookChain handlers s i).2 = List.range' i handlers.length := by
  induction handlers with
  | nil => intro s i; rfl
  | cons h hs ih =>
    intro s i
    simp only [emitHookChain, ih, List.length_cons, List.range']

/-- The decision state after emitting a chain is the fold of the
concatenated calls of all handlers over the initial state. -/
theorem emitHookChain_fst (handlers : List (List HookCall)) :
    ∀ s : Bool × String,
      (emitHookChain handlers s 0).1 = handlers.flatten.foldl applyHookCall s := by
  have hgen : ∀ (hs : List (List HookCall)) (s : Bool × String) (i : Nat),
      (emitHookChain hs s i).1 = hs.flatten.foldl applyHookCall s := by
    intro hs
    induction hs with
    | nil => intro s i; rfl
    | cons h t ih =>
      intro s i
      simp only [emitHookChain, ih, List.flatten, List.foldl_append]
  exact fun s => hgen handlers s 0

/-- One call overwrites the allowed flag with its own decision value. -/
theorem applyHookCall_fst (s : Bool × String) (c : HookCall) :
    (applyHookCall s c).1 = decisionOf (some c) := by
  obtain ⟨b, m⟩ := s
  cases c with
  | allow => rfl
  | deny msg => cases msg <;> rfl

/-- The allowed flag after a run of calls is the decision value of the last
call, or the initial flag when there was no call: last writer wins. -/
theorem foldl_applyHookCall_fst (calls : List HookCall) (s : Bool × String) :
    (calls.foldl applyHookCall s).1
      = match calls.getLast? with
        | none => s.1
        | some c => decisionOf (some c) := by
  induction calls using List.reverseRecOn generalizing s with
  | nil => rfl
  | append_singleton cs c ih =>
    rw [List.foldl_append, List.getLast?_concat]
    simp only [List.foldl_cons, List.foldl_nil]
    exact applyHookCall_fst _ c

/-- The final allowed flag of an emitted chain, started from the default
allow state, is the decision of the last allow or deny call made by any
handler. -/
theorem emitHookChain_allowed (handlers : List (List HookCall)) (d : String) :
    (emitHookChain handlers (true, d) 0).1.1
      = decisionOf (handlers.flatten.getLast?) := by
  rw [emitHookChain_fst, foldl_applyHookCall_fst]
  rcases handlers.flatten.getLast? with _ | c
  · rfl
  · rfl

/-- C1 counterexample: with the before-connection and before-invalidation
chains registered as a denying handler followed by an allowing handler,
the second handler is still invoked after the deny ([0, 1], no
short-circuit), the later allow() overrides the deny (the upgrade
proceeds), and the invalidation is performed and notifies 1 client rather
than 0. -/
theorem hookChain_no_short_circuit :
    (upgradeFlow [[HookCall.deny none], [HookCall.allow]]).2 = [0, 1] ∧
    (upgradeFlow [[HookCall.deny none], [HookCall.allow]]).1 = UpgradeResult.upgraded ∧
    (postInvalidate
        ⟨[(stringifyKey [JSValue.null], [0])], [(0, "client-1")], [0], 2⟩
        [[HookCall.deny none], [HookCall.allow]] [] [JSValue.null]
        (fun _ => true)).2.status = "200 OK" ∧
    ((postInvalidate
        ⟨[(stringifyKey [JSValue.null], [0])], [(0, "client-1")], [0], 2⟩
        [[HookCall.deny none], [HookCall.allow]] [] [JSValue.null]
        (fun _ => true)).2.outcome.map fun o => o.sent.length) = some 1 := by
  refine ⟨rfl, rfl, rfl, rfl⟩

/-- C1 as amended: for both hook chains every registered handler is invoked
in registration order (EventEmitter.emit does not short-circuit), and the
decision is last-writer-wins with default allow: the connection upgrade
succeeds exactly when the last allow or deny call of the concatenated
handler runs is an allow (or no call was made), and when the final
decision is deny the POST /invalidate endpoint answers 403, performs no
invalidation and sends no notification (the state is unchanged and there
is no dispatch outcome). -/
theorem hookChain_last_writer_wins (handlers : List (List HookCall))
    (st : ServerState) (bh : List Bool) (key : List JSValue) (f : Client → Bool) :
    (upgradeFlow handlers).2 = List.range' 0 handlers.length ∧
    (postInvalidate st handlers bh key f).2.invoked
        = List.range' 0 handlers.length ∧
    ((upgradeFlow handlers).1 = UpgradeResult.upgraded ↔
      decisionOf (handlers.flatten.getLast?) = true) ∧
    (decisionOf (handlers.flatten.getLast?) = false →
      (postInvalidate st handlers bh key f).2.status = "403 Forbidden" ∧
      (postInvalidate st handlers bh key f).2.outcome = none ∧
      (postInvalidate st handlers bh key f).1 = st) := by
  have hu2 : (upgradeFlow handlers).2
      = (emitHookChain handlers (true, "Connection denied") 0).2 := by
    unfold upgradeFlow
    by_cases hb : (emitHookChain handlers (true, "Connection denied") 0).1.1
    · rw [if_pos hb]
    · rw [if_neg hb]
  have hp2 : (postInvalidate st handlers bh key f).2.invoked
      = (emitHookChain handlers (true, "Invalidation denied") 0).2 := by
    unfold postInvalidate
    by_cases hb : (emitHookChain handlers (true, "Invalidation denied") 0).1.1
    · rw [if_pos hb]
    · rw [if_neg hb]
  refine ⟨?_, ?_, ?_, ?_⟩
  · rw [hu2, emitHookChain_invoked]
  · rw [hp2, emitHookChain_invoked]
  · unfold upgradeFlow
    by_cases hb : (emitHookChain handlers (true, "Connection denied") 0).1.1
    · rw [if_pos hb]
      rw [emitHookChain_allowed] at hb
      simp [hb]
    · rw [if_neg hb]
      rw [emitHookChain_allowed] at hb
      constructor
      · intro h
        cases h
      · intro h
        rw [h] at hb
        exact absurd rfl hb
  · intro hdeny
    have hb : (emitHookChain handlers (true, "Invalidation denied") 0).1.1 = false := by
      rw [emitHookChain_allowed, hdeny]
    unfold postInvalidate
    simp only [hb, Bool.false_eq_true, if_false]
    exact ⟨trivial, trivial, trivial⟩

/-- Witness for the amended C1: with an allowing handler followed by a
denying handler both handlers run, the final decision is deny, and the
endpoint answers 403 with no dispatch. -/
theorem hookChain_last_writer_wins_witness :
    (upgradeFlow [[HookCall.allow], [HookCall.deny none]]).2 = List.range' 0 2 ∧
    (postInvalidate ⟨[], [], [], 1⟩ [[HookCall.allow], [HookCall.deny none]]
        [] [] (fun _ => true)).2.status = "403 Forbidden" :=
  ⟨(hookChain_last_writer_wins [[HookCall.allow], [HookCall.deny none]]
      ⟨[], [], [], 1⟩ [] [] (fun _ => true)).1,
   ((hookChain_last_writer_wins [[HookCall.allow], [HookCall.deny none]]
      ⟨[], [], [], 1⟩ [] [] (fun _ => true)).2.2.2 (by decide)).1⟩

end RTRQ
